import Mathlib

/-!
Verification of the `codectl` JSON-Schema reference resolver and scaffolding
driver against its specification.

The resolver lives in `src/codectl/schema.py` (`recursive_resolve`,
`resolve_all_refs` and its inner `_resolve_refs`).  It delegates pointer
resolution to `jsonschema.RefResolver` and merging to
`deepmerge.always_merger`; both library behaviours are embedded here
faithfully (URL joining, fragment walking, the always-merge strategy table:
dict/dict recursive merge, list/list append, everything else overridden by
the second argument).

Modelling conventions:
* JSON documents are the inductive type `J`; objects are association lists
  in insertion order, mirroring Python dicts (keys unique on real inputs).
* In-place mutation is rendered as tree rebuilding: each traversal returns
  the value the parent observes after the Python call.  The one Python
  behaviour not modelled is aliasing through `RefResolver`'s remote cache
  (a later fetch of a document observing mutations from an earlier merge);
  every load here returns the pristine stored document.
* Unbounded recursion is modelled with a fuel parameter that decreases at
  every recursive call, mirroring the Python stack; `RErr.outOfFuel` marks
  the computations that exhaust it.
* Python exceptions become `Except RErr` values: `RefResolutionError` on a
  failed document fetch or fragment walk, `TypeError` from `urljoin` on a
  non-string `$ref` (the spec's MalformedPointer), and the `AttributeError`
  raised by `_resolve_refs` when a merge rebinds `subschema` to a scalar.
-/

namespace Codectl

/-- JSON-like documents: scalars, sequences and mappings, as parsed by
`json.loads`.  Objects are ordered association lists. -/
inductive J where
  | null
  | bool (b : Bool)
  | num (n : Int)
  | str (s : String)
  | arr (xs : List J)
  | obj (kvs : List (String × J))
deriving Repr

/-- Python `dict.__getitem__` / `in`: first binding of a key (dicts hold at
most one). -/
def getVal : List (String × J) → String → Option J
  | [], _ => none
  | (k', v) :: rest, k => if k' = k then some v else getVal rest k

/-- Python `key in dict`. -/
def hasKey (kvs : List (String × J)) (k : String) : Bool :=
  (getVal kvs k).isSome

/-- Python `dict.__setitem__`: replace the binding in place, or append a new
one. -/
def setVal : List (String × J) → String → J → List (String × J)
  | [], k, v => [(k, v)]
  | (k', v') :: rest, k, v =>
      if k' = k then (k', v) :: rest else (k', v') :: setVal rest k v

/-- Python `dict.pop(k)`: drop the binding of `k`.  Stated as a filter; on
duplicate-free association lists (the image of Python dicts) this is the
removal of the unique binding. -/
def popKey (kvs : List (String × J)) (k : String) : List (String × J) :=
  kvs.filter (fun kv => kv.1 ≠ k)

mutual

/-- Model of `deepmerge.always_merger.merge base nxt`: dicts merge key by key, lists
append, and on any other combination (type conflict or scalar fallback) the
second argument wins.  The function returns the merged value; Python
additionally mutates `base` in place exactly when both sides are dicts. -/
def mergeJ : J → J → J
  | .obj a, .obj b => .obj (mergeKVs a b)
  | .arr a, .arr b => .arr (a ++ b)
  | _, b => b

/-- The dict strategy of `always_merger`: fold the second dict into the
first, recursively merging values on key collision and appending fresh
keys. -/
def mergeKVs (base : List (String × J)) : List (String × J) → List (String × J)
  | [] => base
  | (k, v) :: rest =>
      let base' :=
        match getVal base k with
        | some old => setVal base k (mergeJ old v)
        | none => base ++ [(k, v)]
      mergeKVs base' rest

end

mutual

/-- Python `==` on parsed JSON values: dict comparison is order-insensitive
(equal sizes and pointwise-equal values per key), list comparison is
positional. -/
def jeq : J → J → Bool
  | .null, .null => true
  | .bool a, .bool b => a == b
  | .num a, .num b => a == b
  | .str a, .str b => a == b
  | .arr a, .arr b => jeqItems a b
  | .obj a, .obj b => a.length == b.length && jeqFields a b
  | _, _ => false

/-- Positional Python `==` on lists. -/
def jeqItems : List J → List J → Bool
  | [], [] => true
  | a :: as, b :: bs => jeq a b && jeqItems as bs
  | _, _ => false

/-- One direction of Python dict `==`: every binding of the first dict is
matched in the second. -/
def jeqFields : List (String × J) → List (String × J) → Bool
  | [], _ => true
  | (k, v) :: rest, b =>
      (match getVal b k with
       | some w => jeq v w
       | none => false) && jeqFields rest b

end

mutual

/-- Whether a document contains a `"$ref"` key in any mapping at any
nesting depth. -/
def hasRefDeep : J → Bool
  | .obj kvs => hasKey kvs "$ref" || hasRefFields kvs
  | .arr xs => hasRefItems xs
  | _ => false

/-- Disjunction of `hasRefDeep` over the values of a mapping. -/
def hasRefFields : List (String × J) → Bool
  | [] => false
  | (_, v) :: rest => hasRefDeep v || hasRefFields rest

/-- Disjunction of `hasRefDeep` over the elements of a sequence. -/
def hasRefItems : List J → Bool
  | [] => false
  | v :: rest => hasRefDeep v || hasRefItems rest

end

/-- Splits a character list at the first occurrence of `c`; `none` as second
component when `c` does not occur. -/
def breakAtChar (c : Char) : List Char → List Char × Option (List Char)
  | [] => ([], none)
  | x :: xs =>
      if x = c then ([], some xs)
      else
        let r := breakAtChar c xs
        (x :: r.1, r.2)

/-- Splits a character list on every occurrence of `c`, like Python
`str.split`. -/
def splitChar (c : Char) : List Char → List (List Char)
  | [] => [[]]
  | x :: xs =>
      if x = c then [] :: splitChar c xs
      else
        match splitChar c xs with
        | [] => [[x]]
        | g :: gs => (x :: g) :: gs

/-- Whether a character list contains `"://"`, the marker of an absolute URL
for the purposes of `urllib.parse.urljoin` on the URLs this program
builds. -/
def isAbsUrl : List Char → Bool
  | ':' :: '/' :: '/' :: _ => true
  | _ :: rest => isAbsUrl rest
  | [] => false

/-- Everything up to and including the last `'/'` of a string: the directory
part kept by `urljoin` when a relative path replaces the last URL segment. -/
def dropLastSeg (s : String) : String :=
  String.mk ((s.data.reverse.dropWhile (fun ch => ch ≠ '/')).reverse)

/-- Model of `urllib.parse.urljoin base rel` restricted to the reference shapes this
program produces: an empty reference keeps the base, an absolute URL wins
outright, and a relative path replaces the base's last segment. -/
def urljoin (base rel : String) : String :=
  if rel = "" then base
  else if isAbsUrl rel.data then rel
  else dropLastSeg base ++ rel

/-- An `urldefrag`-style split of a `$ref` string at its first `'#'` into a
document part and a fragment part. -/
def splitPointer (r : String) : String × String :=
  match breakAtChar '#' r.data with
  | (d, none) => (String.mk d, "")
  | (d, some f) => (String.mk d, String.mk f)

/-- The URL and fragment a `RefResolver` with resolution scope `base`
computes for the reference string `r`: `urldefrag (urljoin base r)`. -/
def refURL (base r : String) : String × String :=
  let p := splitPointer r
  (urljoin base p.1, p.2)

/-- JSON-pointer unescaping of one path segment, as in
`jsonschema.RefResolver.resolve_fragment`: `~1` becomes `/` and `~0`
becomes `~` (percent-decoding is not modelled; no URL this program builds
is percent-encoded). -/
def unescapeTilde : List Char → List Char
  | '~' :: '1' :: rest => '/' :: unescapeTilde rest
  | '~' :: '0' :: rest => '~' :: unescapeTilde rest
  | x :: rest => x :: unescapeTilde rest
  | [] => []

/-- Failures of the resolver, mirroring the Python exceptions that escape
`resolve_all_refs`, plus the fuel marker standing for unbounded
recursion. -/
inductive RErr where
  | missingDocument (url : String)
  | missingFragment (frag : String)
  | malformedPointer
  | attributeError
  | outOfFuel
deriving Repr, DecidableEq

/-- One lookup step of `resolve_fragment`: string key into a mapping, or
`int(part)` into a sequence with Python's negative indexing. -/
def fragStep (doc : J) (part : String) (frag : String) : Except RErr J :=
  match doc with
  | .obj kvs =>
      match getVal kvs part with
      | some v => .ok v
      | none => .error (.missingFragment frag)
  | .arr xs =>
      match part.toInt? with
      | some i =>
          let i' : Int := if i < 0 then i + xs.length else i
          if 0 ≤ i' then
            match xs.get? i'.toNat with
            | some v => .ok v
            | none => .error (.missingFragment frag)
          else .error (.missingFragment frag)
      | none => .error (.missingFragment frag)
  | _ => .error (.missingFragment frag)

/-- Model of `jsonschema.RefResolver.resolve_fragment`: strip the leading slashes of
the fragment, split it on `/`, unescape each part and walk the document. -/
def resolveFragment (doc : J) (frag : String) : Except RErr J :=
  let stripped := frag.data.dropWhile (fun ch => ch = '/')
  let parts :=
    if stripped = [] then []
    else (splitChar '/' stripped).map (fun p => String.mk (unescapeTilde p))
  parts.foldlM (fun d part => fragStep d part frag) doc

/-- Effectful map over the values of a mapping, short-circuiting on the
first error: the `for value in subschema.values()` loop of
`_resolve_refs`. -/
def mapValsM (g : J → Except RErr J) : List (String × J) → Except RErr (List (String × J))
  | [] => pure []
  | (k, v) :: rest => do
      let v' ← g v
      let rest' ← mapValsM g rest
      pure ((k, v') :: rest')

/-- Effectful map over the elements of a sequence, short-circuiting on the
first error: the `for item in subschema` loop of `_resolve_refs`. -/
def mapItemsM (g : J → Except RErr J) : List J → Except RErr (List J)
  | [] => pure []
  | v :: rest => do
      let v' ← g v
      let rest' ← mapItemsM g rest
      pure (v' :: rest')

/-- The inner `_resolve_refs` of `resolve_all_refs` in
`src/codectl/schema.py`, written as a tree rebuild.

`load` is the document loader behind `RefResolver.resolve_remote` (keyed by
URL), `base` the base URI — the Python code passes the original, unchanged
`base_uri` to every nested `RefResolver`, so the resolution scope is the
same constant string at every depth.  `referrer` is the current resolver's
referrer document (`RefResolver(base_uri, referrer)` stores it under
`base`, so a computed URL equal to `base` resolves inside `referrer`
without a load).  `fuel` decreases at every recursive call and models the
Python call stack.

At a mapping holding `"$ref"` the code resolves the pointer, recursively
resolves the target with a fresh resolver whose referrer is the target,
computes `always_merger.merge(subschema, resolved)`, and then:
* when the merge result is a dict (the merge mutated `subschema` in
  place), pops `"$ref"` and walks the remaining values;
* when it is a list (`subschema` was rebound, the original node untouched),
  walks the list for errors and leaves the node as it was;
* otherwise the rebound scalar reaches `subschema.values()` and raises
  `AttributeError`.
A non-string `"$ref"` value makes `urljoin` raise (`TypeError`), the
MalformedPointer failure. -/
def resolveRefs (load : String → Option J) (base : String) :
    Nat → J → J → Except RErr J
  | 0, _, _ => .error .outOfFuel
  | f + 1, referrer, v =>
      match v with
      | .obj kvs =>
          match getVal kvs "$ref" with
          | some (.str r) => do
              let u := refURL base r
              let doc ←
                if u.1 = base then pure referrer
                else
                  match load u.1 with
                  | some d => pure d
                  | none => Except.error (.missingDocument u.1)
              let target ← resolveFragment doc u.2
              let target' ← resolveRefs load base f target target
              match mergeJ (.obj kvs) target' with
              | .obj m =>
                  J.obj <$> mapValsM (resolveRefs load base f referrer) (popKey m "$ref")
              | .arr xs => do
                  let _ ← mapItemsM (resolveRefs load base f referrer) xs
                  pure (J.obj kvs)
              | _ => Except.error .attributeError
          | some _ => Except.error .malformedPointer
          | none => J.obj <$> mapValsM (resolveRefs load base f referrer) kvs
      | .arr xs => J.arr <$> mapItemsM (resolveRefs load base f referrer) xs
      | s => pure s

/-- Entry point `resolve_all_refs(base_uri, schema, RefResolver(base_uri, schema))`:
the whole document is both the tree being walked and the referrer of the
resolver. -/
def resolve_all_refs (load : String → Option J) (base : String) (fuel : Nat)
    (schema : J) : Except RErr J :=
  resolveRefs load base fuel schema schema

/-- Entry point `recursive_resolve(base_uri, schema_file)` after `json.loads`: the
parsed root document is handed to `resolve_all_refs` with the caller's
base URI.  Reading the root file from disk is outside the model; the parsed
document is taken directly. -/
def recursive_resolve (load : String → Option J) (base : String) (fuel : Nat)
    (schema : J) : Except RErr J :=
  resolve_all_refs load base fuel schema

/-- A loader with no documents: every fetch is a MissingDocument. -/
def noLoad : String → Option J := fun _ => none

/-- Conflict fixture for the override-precedence claim, generic in the two
conflicting payloads: a root node carrying a `$ref` to `#/definitions/t`
together with a sibling `"k"` bound to `l`, while the target binds `"k"`
to `r`. -/
def overrideDocP (l r : String) : J :=
  .obj [
    ("$ref", .str "#/definitions/t"),
    ("k", .str l),
    ("definitions", .obj [("t", .obj [("k", .str r)])])]

/-- The override fixture at the spec's own payloads. -/
def overrideDoc : J := overrideDocP "local" "remote"

/-- Fixture of the three-document scenario of §8 of the spec and
`test_schema.py`, with `tmp_path = /tmp/t`: document A. -/
def schemaA : J :=
  .obj [
    ("$ref", .str "t/b.json#/definitions/user"),
    ("properties", .obj [
      ("gender", .obj [
        ("type", .str "string"),
        ("enum", .arr [.str "male", .str "female", .str "other"])])])]

/-- Document B of the three-document scenario. -/
def schemaB : J :=
  .obj [
    ("definitions", .obj [
      ("user", .obj [("$ref", .str "t/c.json#/definitions/user")])])]

/-- Document C of the three-document scenario. -/
def schemaC : J :=
  .obj [
    ("definitions", .obj [
      ("user", .obj [
        ("type", .str "object"),
        ("properties", .obj [
          ("name", .obj [("type", .str "string")]),
          ("age", .obj [("type", .str "number")])])])])]

/-- The loader of the three-document scenario: `b.json` and `c.json` live
next to the root document under `file:///tmp/t/`. -/
def abcLoad : String → Option J := fun u =>
  if u = "file:///tmp/t/b.json" then some schemaB
  else if u = "file:///tmp/t/c.json" then some schemaC
  else none

/-- The spec's expected resolution of document A. -/
def schemaAExpected : J :=
  .obj [
    ("type", .str "object"),
    ("properties", .obj [
      ("name", .obj [("type", .str "string")]),
      ("age", .obj [("type", .str "number")]),
      ("gender", .obj [
        ("type", .str "string"),
        ("enum", .arr [.str "male", .str "female", .str "other"])])])]

/-- The value the code actually builds for document A (same mapping as
`schemaAExpected` up to Python dict equality, in the insertion order the
merge produces). -/
def schemaAResolved : J :=
  .obj [
    ("properties", .obj [
      ("gender", .obj [
        ("type", .str "string"),
        ("enum", .arr [.str "male", .str "female", .str "other"])]),
      ("name", .obj [("type", .str "string")]),
      ("age", .obj [("type", .str "number")])]),
    ("type", .str "object")]

/-- A document whose `$ref` target is a sequence: `#/d` names the list
`["x"]`. -/
def listTargetDoc : J :=
  .obj [
    ("a", .obj [("$ref", .str "#/d")]),
    ("d", .arr [.str "x"])]

/-- Nested-base fixture: the root document references `root/sub/b.json`,
whose fragment `#/d` references `c.json`. -/
def nestedRoot : J := .obj [("$ref", .str "root/sub/b.json#/d")]

/-- Document B of the nested-base fixture, generic in nothing: its `#/d`
fragment carries the relative reference `c.json#/e`. -/
def nestedB : J := .obj [("d", .obj [("$ref", .str "c.json#/e")])]

/-- Loader of the nested-base fixture, generic in the payloads: a `c.json`
next to the ORIGINAL root base (`file:///w/c.json`) answering `s1`, and a
`c.json` next to `b.json` (`file:///w/root/sub/c.json`) answering `s2`. -/
def nestedLoadP (s1 s2 : String) : String → Option J := fun u =>
  if u = "file:///w/root/sub/b.json" then some nestedB
  else if u = "file:///w/c.json" then some (.obj [("e", .obj [("v", .str s1)])])
  else if u = "file:///w/root/sub/c.json" then some (.obj [("e", .obj [("v", .str s2)])])
  else none

/-- Loader of the nested-base fixture with `c.json` present ONLY next to
`b.json` — the location the spec says a reference declared in `b.json`
resolves against. -/
def nestedLoadSubOnly : String → Option J := fun u =>
  if u = "file:///w/root/sub/b.json" then some nestedB
  else if u = "file:///w/root/sub/c.json" then some (.obj [("e", .obj [("v", .str "sub")])])
  else none

/-- C1 counterexample: on the spec's own override scenario the code keeps
the REFERENCED target's value, not the referencing node's sibling: the
resolved node binds `"k"` to `"remote"`, not `"local"`.  The merge is
`always_merger.merge(subschema, resolved)`, whose second argument wins
conflicts. -/
theorem C1_counterexample :
    recursive_resolve noLoad "file:///x" 20 overrideDoc =
      .ok (.obj [
        ("k", .str "remote"),
        ("definitions", .obj [("t", .obj [("k", .str "remote")])])])
    ∧ getVal [("k", J.str "remote"),
        ("definitions", J.obj [("t", J.obj [("k", J.str "remote")])])] "k"
        = some (.str "remote")
    ∧ ("remote" : String) ≠ "local" :=
  ⟨rfl, rfl, by decide⟩

/-- C1 (amended): resolution produces
`merge(current_node, copy_of_resolved_target)` with the TARGET side winning
every conflict, so a node `{"$ref": ..., "k": l}` whose target defines
`"k": r` resolves to a node with `"k": r` — for every pair of payloads. -/
theorem C1_target_wins (l r : String) :
    recursive_resolve noLoad "file:///x" 20 (overrideDocP l r) =
      .ok (.obj [
        ("k", .str r),
        ("definitions", .obj [("t", .obj [("k", .str r)])])]) := rfl

/-- C2 counterexample: a resolve call that succeeds while its result still
contains a `$ref` at depth 1.  The target of `#/d` is a sequence, so
`always_merger.merge` rebinds the local `subschema` without mutating the
referencing node, and the parent keeps `{"$ref": "#/d"}` verbatim. -/
theorem C2_counterexample :
    recursive_resolve noLoad "file:///x" 20 listTargetDoc = .ok listTargetDoc
    ∧ hasRefDeep listTargetDoc = true :=
  ⟨rfl, rfl⟩

/-- C4: the three-document fixture resolves exactly as the spec and
`test_schema.py` state: the chain A → B → C is fully unwound, the result
equals the expected mapping under Python `==`, and no pointer remains at
any depth. -/
theorem C4_three_document_chain :
    recursive_resolve abcLoad "file:///tmp/t" 20 schemaA = .ok schemaAResolved
    ∧ jeq schemaAResolved schemaAExpected = true
    ∧ hasRefDeep schemaAResolved = false :=
  ⟨rfl, rfl, rfl⟩

/-- C3 counterexample: a reference declared inside `b.json` (loaded through
a cross-document reference) is joined against the ORIGINAL root base
location, not against `b.json`'s own location: with distinct documents at
the two candidate locations the root-relative one is returned, and with
`c.json` present only next to `b.json` the resolve fails with
MissingDocument at the root-relative URL. -/
theorem C3_counterexample :
    recursive_resolve (nestedLoadP "rootparent" "sub") "file:///w/root" 20 nestedRoot =
      .ok (.obj [("v", .str "rootparent")])
    ∧ recursive_resolve nestedLoadSubOnly "file:///w/root" 20 nestedRoot =
      .error (.missingDocument "file:///w/c.json")
    ∧ ("rootparent" : String) ≠ "sub" :=
  ⟨rfl, rfl, by decide⟩

/-- C3 (amended): relative document paths at every depth are joined against
the original root base location — every nested `RefResolver` is constructed
with the unchanged root `base_uri` — so a reference in a sub-document picks
the root-relative candidate whatever the two payloads are. -/
theorem C3_root_base_reused (s1 s2 : String) :
    recursive_resolve (nestedLoadP s1 s2) "file:///w/root" 20 nestedRoot =
      .ok (.obj [("v", .str s1)]) := rfl

theorem sizeOf_j_pos (v : J) : 0 < sizeOf v := by
  cases v <;> simp

theorem getVal_none_of_hasKey_false {kvs : List (String × J)} {k : String}
    (h : hasKey kvs k = false) : getVal kvs k = none := by
  unfold hasKey at h
  cases hgv : getVal kvs k with
  | none => rfl
  | some v => rw [hgv] at h; simp at h

theorem hasRefFields_false_mem {kvs : List (String × J)}
    (h : hasRefFields kvs = false) : ∀ kv ∈ kvs, hasRefDeep kv.2 = false := by
  induction kvs with
  | nil => intro kv hm; cases hm
  | cons hd tl ih =>
      intro kv hm
      rw [hasRefFields] at h
      rcases Bool.or_eq_false_iff.mp h with ⟨h1, h2⟩
      rcases List.mem_cons.mp hm with hm | hm
      · rw [hm]; exact h1
      · exact ih h2 kv hm

theorem hasRefItems_false_mem {xs : List J}
    (h : hasRefItems xs = false) : ∀ x ∈ xs, hasRefDeep x = false := by
  induction xs with
  | nil => intro x hm; cases hm
  | cons hd tl ih =>
      intro x hm
      rw [hasRefItems] at h
      rcases Bool.or_eq_false_iff.mp h with ⟨h1, h2⟩
      rcases List.mem_cons.mp hm with hm | hm
      · rw [hm]; exact h1
      · exact ih h2 x hm

theorem mapValsM_ok_of {g : J → Except RErr J} {kvs : List (String × J)}
    (h : ∀ kv ∈ kvs, g kv.2 = .ok kv.2) : mapValsM g kvs = .ok kvs := by
  induction kvs with
  | nil => rfl
  | cons hd tl ih =>
      have hhd := h hd (List.mem_cons_self hd tl)
      have htl := ih fun kv hm => h kv (List.mem_cons_of_mem hd hm)
      cases hd with
      | mk k v =>
          simp only [mapValsM, hhd, htl]
          rfl

theorem mapItemsM_ok_of {g : J → Except RErr J} {xs : List J}
    (h : ∀ x ∈ xs, g x = .ok x) : mapItemsM g xs = .ok xs := by
  induction xs with
  | nil => rfl
  | cons hd tl ih =>
      have hhd := h hd (List.mem_cons_self hd tl)
      have htl := ih fun x hm => h x (List.mem_cons_of_mem hd hm)
      simp only [mapItemsM, hhd, htl]
      rfl

theorem resolveRefs_id (f : Nat) (load : String → Option J) (base : String) :
    ∀ (referrer v : J), hasRefDeep v = false → sizeOf v ≤ f →
      resolveRefs load base f referrer v = .ok v := by
  induction f with
  | zero =>
      intro referrer v _ hsz
      exact absurd (Nat.lt_of_lt_of_le (sizeOf_j_pos v) hsz) (by omega)
  | succ f ih =>
      intro referrer v hnr hsz
      cases v with
      | null => rfl
      | bool b => rfl
      | num n => rfl
      | str s => rfl
      | arr xs =>
          have hx : ∀ x ∈ xs, resolveRefs load base f referrer x = .ok x := by
            intro x hm
            have hs : sizeOf x < sizeOf (J.arr xs) := by
              have := List.sizeOf_lt_of_mem hm
              simp only [J.arr.sizeOf_spec]
              omega
            exact ih referrer x (hasRefItems_false_mem (by rw [hasRefDeep] at hnr; exact hnr) x hm)
              (by omega)
          rw [resolveRefs, mapItemsM_ok_of hx]
          rfl
      | obj kvs =>
          rw [hasRefDeep] at hnr
          rcases Bool.or_eq_false_iff.mp hnr with ⟨h1, h2⟩
          have hkey : getVal kvs "$ref" = none := getVal_none_of_hasKey_false h1
          have hv : ∀ kv ∈ kvs, resolveRefs load base f referrer kv.2 = .ok kv.2 := by
            intro kv hm
            have hs : sizeOf kv.2 < sizeOf (J.obj kvs) := by
              have h3 := List.sizeOf_lt_of_mem hm
              cases kv with
              | mk a b =>
                  simp only [J.obj.sizeOf_spec]
                  simp only [Prod.mk.sizeOf_spec] at h3
                  omega
            exact ih referrer kv.2 (hasRefFields_false_mem h2 kv hm) (by omega)
          rw [resolveRefs, hkey, mapValsM_ok_of hv]
          rfl

/-- C6: on a document with no `$ref` at any depth, and fuel at least the
size of the document (the recursion is structural, so the Python stack
need only cover the tree), `resolve_all_refs` returns the document
unchanged — resolution is the identity on fully-resolved documents, and in
particular scalar nodes are never modified. -/
theorem C6_identity_on_refless (load : String → Option J) (base : String)
    (fuel : Nat) (v : J) (hnr : hasRefDeep v = false) (hsz : sizeOf v ≤ fuel) :
    resolve_all_refs load base fuel v = .ok v :=
  resolveRefs_id fuel load base v v hnr hsz

/-- Witness for C6 at a concrete refless document. -/
theorem C6_identity_witness :
    hasRefDeep (J.obj [("a", .str "x"), ("b", .arr [.num 3, .null])]) = false
    ∧ sizeOf (J.obj [("a", .str "x"), ("b", .arr [.num 3, .null])]) ≤ 1000
    ∧ resolve_all_refs noLoad "file:///x" 1000
        (J.obj [("a", .str "x"), ("b", .arr [.num 3, .null])]) =
        .ok (J.obj [("a", .str "x"), ("b", .arr [.num 3, .null])]) :=
  ⟨rfl, by decide, C6_identity_on_refless noLoad "file:///x" 1000 _ rfl (by decide)⟩

/-- C7: resolution failures surface immediately and fail the whole resolve
call with no local recovery: (1) an error from any value of a mapping
aborts the mapping's traversal with that very error; and concretely a
reference to an absent document fails with MissingDocument (2), an absent
fragment path fails with MissingFragment (3) — also from a nested position,
showing propagation to the top (4) — and a non-string `$ref` value fails
with MalformedPointer (5). -/
theorem C7_errors_propagate :
    (∀ (load : String → Option J) (base : String) (f : Nat) (referrer : J)
       (kvs : List (String × J)) (e : RErr),
       getVal kvs "$ref" = none →
       mapValsM (resolveRefs load base f referrer) kvs = .error e →
       resolveRefs load base (f + 1) referrer (.obj kvs) = .error e)
    ∧ recursive_resolve noLoad "file:///x" 20
        (.obj [("a", .obj [("$ref", .str "m.json#/x")])]) =
        .error (.missingDocument "file:///m.json")
    ∧ recursive_resolve noLoad "file:///x" 20 (.obj [("$ref", .str "#/nope")]) =
        .error (.missingFragment "/nope")
    ∧ recursive_resolve noLoad "file:///x" 20
        (.obj [("deep", .arr [.obj [("$ref", .str "#/nope")]])]) =
        .error (.missingFragment "/nope")
    ∧ recursive_resolve noLoad "file:///x" 20 (.obj [("$ref", .num 5)]) =
        .error .malformedPointer := by
  refine ⟨?_, rfl, rfl, rfl, rfl⟩
  intro load base f referrer kvs e hkey hmap
  rw [resolveRefs, hkey, hmap]
  rfl

/-- Witness for C7: the propagation conjunct applied at a concrete mapping
whose single value fails with MissingFragment. -/
theorem C7_errors_witness :
    resolveRefs noLoad "file:///x" 3 J.null
      (.obj [("a", .obj [("$ref", .str "#/nope")])]) =
      .error (.missingFragment "/nope") :=
  C7_errors_propagate.1 noLoad "file:///x" 2 J.null
    [("a", .obj [("$ref", .str "#/nope")])] (.missingFragment "/nope") rfl rfl

/-- Python truthiness of a parsed JSON value: `None`, `False`, `0`, `""`,
`[]` and `{}` are falsy, everything else truthy. -/
def pythonTruthy : J → Bool
  | .null => false
  | .bool b => b
  | .num n => n ≠ 0
  | .str s => s ≠ ""
  | .arr xs => !xs.isEmpty
  | .obj kvs => !kvs.isEmpty

/-- Lookup in an abstract file system (path to contents). -/
def fsGet : List (String × String) → String → Option String
  | [], _ => none
  | (p, c) :: rest, q => if p = q then some c else fsGet rest q

/-- Write in the abstract file system: replace or append. -/
def fsSet : List (String × String) → String → String → List (String × String)
  | [], p, c => [(p, c)]
  | (p', c') :: rest, p, c =>
      if p' = p then (p', c) :: rest else (p', c') :: fsSet rest p c

/-- Result of the write-or-skip step: the file system afterwards and the
warning notices emitted (via `click.secho`, yellow). -/
structure WriteOutcome where
  fs : List (String × String)
  warnings : List String
deriving Repr

/-- The warning `process_file` prints when it skips an existing file;
`relpath` renders `filepath.relative_to(output)`. -/
def skipNotice (relpath : String) : String :=
  "The " ++ relpath ++ " file already exists and will be ignored."

/-- The final write/skip step of `process_file`
(`src/codectl/compiler.py`, lines 91–98): fetch `_update` from the render
context with default `False`; when the output file exists and the flag is
not truthy, emit the warning and return without writing; otherwise write
the rendered content.  The earlier part of `process_file` (Jinja rendering
and output-path computation) is the external boundary; `filepath` and
`content` arrive here already computed. -/
def process_file_write (fs : List (String × String)) (filepath relpath : String)
    (schemas : List (String × J)) (content : String) : WriteOutcome :=
  let update := (getVal schemas "_update").getD (J.bool false)
  if (fsGet fs filepath).isSome && !pythonTruthy update then
    { fs := fs, warnings := [skipNotice relpath] }
  else
    { fs := fsSet fs filepath content, warnings := [] }

/-- Python exceptions reachable from `process_files` and
`retrieve_nested_value`. -/
inductive PyErr where
  | nameError (var : String)
  | keyError (k : String)
  | typeError
  | attrError
deriving Repr, DecidableEq

/-- One `operator.getitem` step on a parsed JSON value with a string key:
`KeyError` when a mapping lacks the key, `TypeError` on sequences, strings
and scalars (string subscripts). -/
def getitemJ (d : J) (k : String) : Except PyErr J :=
  match d with
  | .obj kvs =>
      match getVal kvs k with
      | some v => .ok v
      | none => .error (.keyError k)
  | _ => .error .typeError

/-- Model of `utils.retrieve_nested_value`: fold `getitem` over the dot-separated
key path, starting from the context mapping. -/
def retrieve_nested_value (schemas : List (String × J)) (path : String) :
    Except PyErr J :=
  ((splitChar '.' path.data).map String.mk).foldlM getitemJ (.obj schemas)

/-- Lookup of a named Jinja filter in `env.filters`. -/
def findFilterFn : List (String × (J → J)) → String → Option (J → J)
  | [], _ => none
  | (n, g) :: rest, m => if n = m then some g else findFilterFn rest m

/-- Python iteration over the value bound to `elements`: lists yield their
items, strings their characters, mappings their keys; scalars raise
`TypeError`. -/
def toIter : J → Except PyErr (List J)
  | .arr xs => .ok xs
  | .str s => .ok (s.data.map (fun c => .str (String.mk [c])))
  | .obj kvs => .ok (kvs.map (fun kv => .str kv.1))
  | _ => .error .typeError

/-- The `{"_": elem, **schemas}` dict literal of the batch loop: start from
the `"_"` binding and let the unpacked context override. -/
def pyUnion (elem : J) (schemas : List (String × J)) : List (String × J) :=
  schemas.foldl (fun acc kv => setVal acc kv.1 kv.2) [("_", elem)]

/-- Model of `process_files` (`src/codectl/compiler.py`, lines 101–139), from the
`_iter` lookup on: `iter_key = schemas.get("_iter")` is tested for
truthiness, and only inside that branch is the local variable `elements`
assigned (`retrieve_nested_value(schemas, iter_key) or []`, optionally
passed through the `_iter_filter` filter).  The `for elem in elements`
loop that follows reads `elements` unconditionally, so when `_iter` is
absent or falsy the function raises `NameError` for the unassigned local.
Rendering is the external boundary: `render` stands for the string
template of the file stem applied to a context, and the returned list
holds the rendered file names of the loop (each iteration then defers to
`process_file`). -/
def process_files (filters : List (String × (J → J))) (render : List (String × J) → String)
    (schemas : List (String × J)) : Except PyErr (List String) :=
  match getVal schemas "_iter" with
  | some ik =>
      if pythonTruthy ik then
        match ik with
        | .str path =>
            match retrieve_nested_value schemas path with
            | .error e => .error e
            | .ok found =>
                let es := if pythonTruthy found then found else .arr []
                let es :=
                  match getVal schemas "_iter_filter" with
                  | some (.str fname) =>
                      if pythonTruthy (.str fname) then
                        match findFilterFn filters fname with
                        | some g => g es
                        | none => es
                      else es
                  | _ => es
                match toIter es with
                | .error e => .error e
                | .ok items => .ok (items.map (fun elem => render (pyUnion elem schemas)))
        | _ => .error .attrError
      else .error (.nameError "elements")
  | none => .error (.nameError "elements")

/-- Whether the `_iter` key is present with a truthy value. -/
def iterTruthy (schemas : List (String × J)) : Bool :=
  match getVal schemas "_iter" with
  | some ik => pythonTruthy ik
  | none => false

/-- C9: in single-template mode, when the computed output file exists and
the context's `_update` flag (defaulted to `False`) is not truthy, the
file system is returned unchanged — no write at all — and the warning
naming the skipped file is emitted; when the flag is truthy the existing
file is overwritten with the newly rendered content. -/
theorem C9_update_flag (fs : List (String × String)) (filepath relpath : String)
    (schemas : List (String × J)) (content : String) :
    ((fsGet fs filepath).isSome = true →
      pythonTruthy ((getVal schemas "_update").getD (J.bool false)) = false →
      process_file_write fs filepath relpath schemas content =
        { fs := fs, warnings := [skipNotice relpath] })
    ∧ (pythonTruthy ((getVal schemas "_update").getD (J.bool false)) = true →
      (process_file_write fs filepath relpath schemas content).fs =
        fsSet fs filepath content
      ∧ fsGet (fsSet fs filepath content) filepath = some content) := by
  constructor
  · intro hex hupd
    simp [process_file_write, hex, hupd]
  · intro hupd
    constructor
    · simp [process_file_write, hupd]
    · induction fs with
      | nil => simp [fsSet, fsGet]
      | cons hd tl ih =>
          cases hd with
          | mk p c =>
              by_cases hp : p = filepath
              · simp [fsSet, fsGet, hp]
              · simp [fsSet, fsGet, hp, ih]

/-- Witness for C9: a context without `_update` skips an existing file,
and one with `_update: true` overwrites it. -/
theorem C9_update_flag_witness :
    (fsGet [("out/f.py", "old")] "out/f.py").isSome = true
    ∧ pythonTruthy ((getVal ([] : List (String × J)) "_update").getD (J.bool false)) = false
    ∧ process_file_write [("out/f.py", "old")] "out/f.py" "f.py" [] "new" =
        { fs := [("out/f.py", "old")], warnings := [skipNotice "f.py"] }
    ∧ pythonTruthy ((getVal [("_update", J.bool true)] "_update").getD (J.bool false)) = true
    ∧ (process_file_write [("out/f.py", "old")] "out/f.py" "f.py"
        [("_update", J.bool true)] "new").fs = fsSet [("out/f.py", "old")] "out/f.py" "new" :=
  ⟨rfl, rfl,
   (C9_update_flag [("out/f.py", "old")] "out/f.py" "f.py" [] "new").1 rfl rfl,
   rfl,
   ((C9_update_flag [("out/f.py", "old")] "out/f.py" "f.py" [("_update", J.bool true)] "new").2
     rfl).1⟩

/-- C10: when the batch context has no `_iter` key, or a falsy one, the
local `elements` is never assigned and `process_files` raises `NameError`
at the output loop — batch mode never gracefully produces zero output
files for a template without an iteration source. -/
theorem C10_missing_iter_name_error (filters : List (String × (J → J)))
    (render : List (String × J) → String) (schemas : List (String × J))
    (h : iterTruthy schemas = false) :
    process_files filters render schemas = .error (.nameError "elements") := by
  unfold iterTruthy at h
  unfold process_files
  cases hik : getVal schemas "_iter" with
  | none => rfl
  | some ik =>
      rw [hik] at h
      simp at h
      simp [h]

/-- Witness for C10 at the empty context and at a context with a falsy
`_iter`. -/
theorem C10_missing_iter_witness :
    iterTruthy [] = false
    ∧ process_files [] (fun _ => "f") [] = .error (.nameError "elements")
    ∧ iterTruthy [("_iter", .str "")] = false
    ∧ process_files [] (fun _ => "f") [("_iter", .str "")] =
        .error (.nameError "elements") :=
  ⟨rfl, C10_missing_iter_name_error [] (fun _ => "f") [] rfl,
   by decide, C10_missing_iter_name_error [] (fun _ => "f") [("_iter", .str "")] (by decide)⟩

/-- Whether a value is a fragment-only string reference: a string whose
document part (before the first `#`) is empty. -/
def isFragStr : J → Bool
  | .str r => (splitPointer r).1 == ""
  | _ => false

/-- Whether the binding `k := v` is admissible in a document all of whose
references are fragment-only: a `"$ref"` key must carry a fragment-only
string. -/
def refEntryOK (k : String) (v : J) : Bool :=
  if k = "$ref" then isFragStr v else true

mutual

/-- Every `$ref` in the document, at any depth, is a fragment-only string
reference (`#/...`). -/
def fragOnly : J → Bool
  | .obj kvs => fragOnlyFields kvs
  | .arr xs => fragOnlyItems xs
  | _ => true

/-- Conjunction of `fragOnly` over the bindings of a mapping. -/
def fragOnlyFields : List (String × J) → Bool
  | [] => true
  | (k, v) :: rest => refEntryOK k v && fragOnly v && fragOnlyFields rest

/-- Conjunction of `fragOnly` over the elements of a sequence. -/
def fragOnlyItems : List J → Bool
  | [] => true
  | v :: rest => fragOnly v && fragOnlyItems rest

end

theorem getVal_mem {kvs : List (String × J)} {k : String} {v : J}
    (h : getVal kvs k = some v) : (k, v) ∈ kvs := by
  induction kvs with
  | nil => cases h
  | cons hd tl ih =>
      cases hd with
      | mk k' v' =>
          rw [getVal] at h
          by_cases hk : k' = k
          · rw [if_pos hk] at h
            cases h
            rw [hk]
            exact List.mem_cons_self _ _
          · rw [if_neg hk] at h
            exact List.mem_cons_of_mem _ (ih h)

theorem getVal_none_forall {kvs : List (String × J)} {k : String}
    (h : getVal kvs k = none) : ∀ kv ∈ kvs, kv.1 ≠ k := by
  induction kvs with
  | nil => intro kv hm; cases hm
  | cons hd tl ih =>
      intro kv hm
      cases hd with
      | mk k' v' =>
          rw [getVal] at h
          by_cases hk : k' = k
          · rw [if_pos hk] at h; cases h
          · rw [if_neg hk] at h
            rcases List.mem_cons.mp hm with hm | hm
            · rw [hm]; exact hk
            · exact ih h kv hm

theorem getVal_none_of_forall {kvs : List (String × J)} {k : String}
    (h : ∀ kv ∈ kvs, kv.1 ≠ k) : getVal kvs k = none := by
  induction kvs with
  | nil => rfl
  | cons hd tl ih =>
      cases hd with
      | mk k' v' =>
          rw [getVal, if_neg (h (k', v') (List.mem_cons_self _ _)), ih]
          intro kv hm
          exact h kv (List.mem_cons_of_mem _ hm)

theorem listGet?_mem {xs : List J} {i : Nat} {v : J} (h : xs.get? i = some v) :
    v ∈ xs := by
  induction xs generalizing i with
  | nil => cases h
  | cons hd tl ih =>
      cases i with
      | zero => cases h; exact List.mem_cons_self _ _
      | succ i => exact List.mem_cons_of_mem _ (ih h)

theorem fragOnlyFields_mem {kvs : List (String × J)}
    (h : fragOnlyFields kvs = true) :
    ∀ kv ∈ kvs, refEntryOK kv.1 kv.2 = true ∧ fragOnly kv.2 = true := by
  induction kvs with
  | nil => intro kv hm; cases hm
  | cons hd tl ih =>
      intro kv hm
      cases hd with
      | mk k v =>
          rw [fragOnlyFields] at h
          rcases Bool.and_eq_true_iff.mp h with ⟨h1, h2⟩
          rcases Bool.and_eq_true_iff.mp h1 with ⟨h3, h4⟩
          rcases List.mem_cons.mp hm with hm | hm
          · rw [hm]; exact ⟨h3, h4⟩
          · exact ih h2 kv hm

theorem fragOnlyItems_mem {xs : List J} (h : fragOnlyItems xs = true) :
    ∀ x ∈ xs, fragOnly x = true := by
  induction xs with
  | nil => intro x hm; cases hm
  | cons hd tl ih =>
      intro x hm
      rw [fragOnlyItems] at h
      rcases Bool.and_eq_true_iff.mp h with ⟨h1, h2⟩
      rcases List.mem_cons.mp hm with hm | hm
      · rw [hm]; exact h1
      · exact ih h2 x hm

theorem fragOnlyFields_of_mem {kvs : List (String × J)}
    (h : ∀ kv ∈ kvs, refEntryOK kv.1 kv.2 = true ∧ fragOnly kv.2 = true) :
    fragOnlyFields kvs = true := by
  induction kvs with
  | nil => rfl
  | cons hd tl ih =>
      cases hd with
      | mk k v =>
          rcases h (k, v) (List.mem_cons_self _ _) with ⟨h1, h2⟩
          rw [fragOnlyFields, h1, h2, ih fun kv hm => h kv (List.mem_cons_of_mem _ hm)]
          rfl

theorem fragOnlyItems_of_mem {xs : List J}
    (h : ∀ x ∈ xs, fragOnly x = true) : fragOnlyItems xs = true := by
  induction xs with
  | nil => rfl
  | cons hd tl ih =>
      rw [fragOnlyItems, h hd (List.mem_cons_self _ _),
        ih fun x hm => h x (List.mem_cons_of_mem _ hm)]
      rfl

theorem fragStep_pres {doc : J} {part frag : String} {v : J}
    (hd : fragOnly doc = true) (h : fragStep doc part frag = .ok v) :
    fragOnly v = true := by
  cases doc with
  | obj kvs =>
      rw [fragStep] at h
      cases hgv : getVal kvs part with
      | none => rw [hgv] at h; cases h
      | some w =>
          rw [hgv] at h
          cases h
          exact (fragOnlyFields_mem (by rw [fragOnly] at hd; exact hd) _ (getVal_mem hgv)).2
  | arr xs =>
      rw [fragStep] at h
      cases hti : part.toInt? with
      | none => rw [hti] at h; cases h
      | some i =>
          rw [hti] at h
          simp only at h
          generalize hidx : (if i < 0 then i + (xs.length : Int) else i) = idx at h
          split at h
          · cases hx : xs.get? idx.toNat with
            | none => rw [hx] at h; cases h
            | some w =>
                rw [hx] at h
                cases h
                exact fragOnlyItems_mem (by rw [fragOnly] at hd; exact hd) _ (listGet?_mem hx)
          · cases h
  | null => cases h
  | bool b => cases h
  | num n => cases h
  | str s => cases h

theorem fragWalk_pres {frag : String} :
    ∀ (parts : List String) (doc : J) (t : J), fragOnly doc = true →
      parts.foldlM (fun d part => fragStep d part frag) doc = .ok t →
      fragOnly t = true := by
  intro parts
  induction parts with
  | nil =>
      intro doc t hd h
      cases h
      exact hd
  | cons p ps ih =>
      intro doc t hd h
      rw [List.foldlM_cons] at h
      cases hs : fragStep doc p frag with
      | error e => rw [hs] at h; cases h
      | ok d' =>
          rw [hs] at h
          exact ih d' t (fragStep_pres hd hs) h

theorem resolveFragment_pres {doc : J} {frag : String} {t : J}
    (hd : fragOnly doc = true) (h : resolveFragment doc frag = .ok t) :
    fragOnly t = true := by
  rw [resolveFragment] at h
  exact fragWalk_pres _ _ _ hd h

@[simp] theorem bindE_ok {α β : Type} (a : α) (g : α → Except RErr β) :
    (Except.ok a >>= g) = g a := rfl

@[simp] theorem bindE_err {α β : Type} (e : RErr) (g : α → Except RErr β) :
    ((Except.error e : Except RErr α) >>= g) = Except.error e := rfl

@[simp] theorem mapE_ok {α β : Type} (g : α → β) (a : α) :
    (g <$> (Except.ok a : Except RErr α)) = Except.ok (g a) := rfl

@[simp] theorem mapE_err {α β : Type} (g : α → β) (e : RErr) :
    (g <$> (Except.error e : Except RErr α)) = Except.error e := rfl

@[simp] theorem pureE (a : J) : (pure a : Except RErr J) = Except.ok a := rfl

theorem okInj {α : Type} {a b : α} (h : (Except.ok a : Except RErr α) = .ok b) :
    a = b := by injection h

theorem mem_setVal {kvs : List (String × J)} {k : String} {v : J} {x : String × J}
    (h : x ∈ setVal kvs k v) : x ∈ kvs ∨ x = (k, v) := by
  induction kvs with
  | nil =>
      rw [setVal] at h
      rcases List.mem_cons.mp h with h | h
      · exact Or.inr h
      · cases h
  | cons hd tl ih =>
      cases hd with
      | mk k' v' =>
          rw [setVal] at h
          by_cases hk : k' = k
          · rw [if_pos hk] at h
            rcases List.mem_cons.mp h with h | h
            · rw [hk] at h; exact Or.inr h
            · exact Or.inl (List.mem_cons_of_mem _ h)
          · rw [if_neg hk] at h
            rcases List.mem_cons.mp h with h | h
            · exact Or.inl (h ▸ List.mem_cons_self _ _)
            · rcases ih h with h | h
              · exact Or.inl (List.mem_cons_of_mem _ h)
              · exact Or.inr h

theorem mem_popKey {kvs : List (String × J)} {k : String} {x : String × J}
    (h : x ∈ popKey kvs k) : x ∈ kvs ∧ x.1 ≠ k := by
  rw [popKey] at h
  rcases List.mem_filter.mp h with ⟨h1, h2⟩
  exact ⟨h1, of_decide_eq_true h2⟩

theorem refEntryOK_merge {k : String} {x y : J}
    (hx : refEntryOK k x = true) (hy : refEntryOK k y = true) :
    refEntryOK k (mergeJ x y) = true := by
  by_cases hk : k = "$ref"
  · rw [refEntryOK, if_pos hk] at hx hy ⊢
    cases x <;> cases y <;> exact hy
  · rw [refEntryOK, if_neg hk]

theorem sizeOf_list_pos (b : List (String × J)) : 0 < sizeOf b := by
  cases b <;> simp

theorem mergePresAux (n : Nat) :
    (∀ a b : J, sizeOf b ≤ n → fragOnly a = true → fragOnly b = true →
      fragOnly (mergeJ a b) = true)
    ∧ (∀ a b : List (String × J), sizeOf b ≤ n → fragOnlyFields a = true →
      fragOnlyFields b = true → fragOnlyFields (mergeKVs a b) = true) := by
  induction n with
  | zero =>
      constructor
      · intro a b hsz _ _
        exact absurd (Nat.lt_of_lt_of_le (sizeOf_j_pos b) hsz) (by omega)
      · intro a b hsz _ _
        exact absurd (Nat.lt_of_lt_of_le (sizeOf_list_pos b) hsz) (by omega)
  | succ n ih =>
      constructor
      · intro a b hsz ha hb
        cases a with
        | obj ka =>
            cases b with
            | obj kb =>
                show fragOnlyFields (mergeKVs ka kb) = true
                refine ih.2 ka kb ?_ ha hb
                simp only [J.obj.sizeOf_spec] at hsz
                omega
            | arr xb => exact hb
            | null => exact hb
            | bool c => exact hb
            | num m => exact hb
            | str s => exact hb
        | arr xa =>
            cases b with
            | arr xb =>
                show fragOnlyItems (xa ++ xb) = true
                refine fragOnlyItems_of_mem fun x hm => ?_
                rcases List.mem_append.mp hm with hm | hm
                · exact fragOnlyItems_mem ha x hm
                · exact fragOnlyItems_mem hb x hm
            | obj kb => exact hb
            | null => exact hb
            | bool c => exact hb
            | num m => exact hb
            | str s => exact hb
        | null => cases b <;> exact hb
        | bool c => cases b <;> exact hb
        | num m => cases b <;> exact hb
        | str s => cases b <;> exact hb
      · intro a b hsz ha hb
        cases b with
        | nil => exact ha
        | cons hd rest =>
            cases hd with
            | mk k v =>
                rw [fragOnlyFields] at hb
                rcases Bool.and_eq_true_iff.mp hb with ⟨hb1, hbrest⟩
                rcases Bool.and_eq_true_iff.mp hb1 with ⟨hbk, hbv⟩
                have hszrest : sizeOf rest ≤ n := by
                  simp only [List.cons.sizeOf_spec, Prod.mk.sizeOf_spec] at hsz
                  omega
                have hszv : sizeOf v ≤ n := by
                  simp only [List.cons.sizeOf_spec, Prod.mk.sizeOf_spec] at hsz
                  omega
                cases hgv : getVal a k with
                | some old =>
                    have hold := fragOnlyFields_mem ha _ (getVal_mem hgv)
                    have hmerged : fragOnly (mergeJ old v) = true :=
                      ih.1 old v hszv hold.2 hbv
                    have hbase' : fragOnlyFields (setVal a k (mergeJ old v)) = true := by
                      refine fragOnlyFields_of_mem fun kv hm => ?_
                      rcases mem_setVal hm with hm | hm
                      · exact fragOnlyFields_mem ha kv hm
                      · rw [hm]
                        exact ⟨refEntryOK_merge hold.1 hbk, hmerged⟩
                    have := ih.2 (setVal a k (mergeJ old v)) rest hszrest hbase' hbrest
                    rw [mergeKVs, hgv]
                    exact this
                | none =>
                    have hbase' : fragOnlyFields (a ++ [(k, v)]) = true := by
                      refine fragOnlyFields_of_mem fun kv hm => ?_
                      rcases List.mem_append.mp hm with hm | hm
                      · exact fragOnlyFields_mem ha kv hm
                      · rcases List.mem_cons.mp hm with hm | hm
                        · rw [hm]; exact ⟨hbk, hbv⟩
                        · cases hm
                    have := ih.2 (a ++ [(k, v)]) rest hszrest hbase' hbrest
                    rw [mergeKVs, hgv]
                    exact this

theorem mergeJ_fragOnly {a b : J} (ha : fragOnly a = true) (hb : fragOnly b = true) :
    fragOnly (mergeJ a b) = true :=
  (mergePresAux (sizeOf b)).1 a b (Nat.le_refl _) ha hb

theorem resolveRefs_arr (load : String → Option J) (base : String) (f : Nat)
    (referrer : J) (xs : List J) :
    resolveRefs load base (f + 1) referrer (.arr xs) =
      J.arr <$> mapItemsM (resolveRefs load base f referrer) xs := rfl

theorem resolveRefs_obj_noref {kvs : List (String × J)}
    (load : String → Option J) (base : String) (f : Nat) (referrer : J)
    (hgv : getVal kvs "$ref" = none) :
    resolveRefs load base (f + 1) referrer (.obj kvs) =
      J.obj <$> mapValsM (resolveRefs load base f referrer) kvs := by
  rw [resolveRefs, hgv]

/-- The continuation of `_resolve_refs` once the referenced document is in
hand: locate the fragment, recursively resolve the target with itself as
referrer, merge, and traverse the outcome. -/
def refsAfterDoc (load : String → Option J) (base : String) (f : Nat)
    (referrer : J) (kvs : List (String × J)) (r : String) (doc : J) :
    Except RErr J :=
  resolveFragment doc (refURL base r).2 >>= fun target =>
  resolveRefs load base f target target >>= fun target' =>
  match mergeJ (.obj kvs) target' with
  | .obj m =>
      J.obj <$> mapValsM (resolveRefs load base f referrer) (popKey m "$ref")
  | .arr xs =>
      mapItemsM (resolveRefs load base f referrer) xs >>= fun _ =>
        pure (J.obj kvs)
  | _ => Except.error .attributeError

theorem resolveRefs_obj_ref {kvs : List (String × J)} {r : String}
    (load : String → Option J) (base : String) (f : Nat) (referrer : J)
    (hgv : getVal kvs "$ref" = some (.str r)) :
    resolveRefs load base (f + 1) referrer (.obj kvs) =
      (if (refURL base r).1 = base then
        refsAfterDoc load base f referrer kvs r referrer
      else
        match load (refURL base r).1 with
        | some d => refsAfterDoc load base f referrer kvs r d
        | none => Except.error (.missingDocument (refURL base r).1)) := by
  rw [resolveRefs, hgv]
  rfl

theorem mapValsM_keys {g : J → Except RErr J} :
    ∀ {kvs ws : List (String × J)}, mapValsM g kvs = .ok ws →
      ws.map Prod.fst = kvs.map Prod.fst := by
  intro kvs
  induction kvs with
  | nil => intro ws h; cases okInj h; rfl
  | cons hd tl ih =>
      intro ws h
      cases hd with
      | mk k v =>
          rw [mapValsM] at h
          cases hgx : g v with
          | error e => rw [hgx, bindE_err] at h; cases h
          | ok v' =>
              rw [hgx, bindE_ok] at h
              cases hrest : mapValsM g tl with
              | error e => rw [hrest, bindE_err] at h; cases h
              | ok rest' =>
                  rw [hrest, bindE_ok] at h
                  cases okInj h
                  simp [ih hrest]

theorem mapValsM_fragPres {g : J → Except RErr J}
    (hg : ∀ v w, fragOnly v = true → g v = .ok w → fragOnly w = true) :
    ∀ {kvs ws : List (String × J)},
      (∀ kv ∈ kvs, kv.1 ≠ "$ref" ∧ fragOnly kv.2 = true) →
      mapValsM g kvs = .ok ws → fragOnlyFields ws = true := by
  intro kvs
  induction kvs with
  | nil => intro ws _ h; cases okInj h; rfl
  | cons hd tl ih =>
      intro ws hin h
      cases hd with
      | mk k v =>
          rw [mapValsM] at h
          cases hgx : g v with
          | error e => rw [hgx, bindE_err] at h; cases h
          | ok v' =>
              rw [hgx, bindE_ok] at h
              cases hrest : mapValsM g tl with
              | error e => rw [hrest, bindE_err] at h; cases h
              | ok rest' =>
                  rw [hrest, bindE_ok] at h
                  cases okInj h
                  rcases hin (k, v) (List.mem_cons_self _ _) with ⟨hk, hv⟩
                  rw [fragOnlyFields, refEntryOK, if_neg hk,
                    hg v v' hv hgx,
                    ih (fun kv hm => hin kv (List.mem_cons_of_mem _ hm)) hrest]
                  rfl

theorem mapItemsM_fragPres {g : J → Except RErr J}
    (hg : ∀ v w, fragOnly v = true → g v = .ok w → fragOnly w = true) :
    ∀ {xs ws : List J}, (∀ x ∈ xs, fragOnly x = true) →
      mapItemsM g xs = .ok ws → fragOnlyItems ws = true := by
  intro xs
  induction xs with
  | nil => intro ws _ h; cases okInj h; rfl
  | cons hd tl ih =>
      intro ws hin h
      rw [mapItemsM] at h
      cases hgx : g hd with
      | error e => rw [hgx, bindE_err] at h; cases h
      | ok v' =>
          rw [hgx, bindE_ok] at h
          cases hrest : mapItemsM g tl with
          | error e => rw [hrest, bindE_err] at h; cases h
          | ok rest' =>
              rw [hrest, bindE_ok] at h
              cases okInj h
              rw [fragOnlyItems, hg hd v' (hin hd (List.mem_cons_self _ _)) hgx,
                ih (fun x hm => hin x (List.mem_cons_of_mem _ hm)) hrest]
              rfl

theorem mapValsM_congr {g₁ g₂ : J → Except RErr J} :
    ∀ {kvs : List (String × J)}, (∀ kv ∈ kvs, g₁ kv.2 = g₂ kv.2) →
      mapValsM g₁ kvs = mapValsM g₂ kvs := by
  intro kvs
  induction kvs with
  | nil => intro _; rfl
  | cons hd tl ih =>
      intro h
      cases hd with
      | mk k v =>
          rw [mapValsM, mapValsM, h (k, v) (List.mem_cons_self _ _),
            ih fun kv hm => h kv (List.mem_cons_of_mem _ hm)]

theorem mapItemsM_congr {g₁ g₂ : J → Except RErr J} :
    ∀ {xs : List J}, (∀ x ∈ xs, g₁ x = g₂ x) →
      mapItemsM g₁ xs = mapItemsM g₂ xs := by
  intro xs
  induction xs with
  | nil => intro _; rfl
  | cons hd tl ih =>
      intro h
      rw [mapItemsM, mapItemsM, h hd (List.mem_cons_self _ _),
        ih fun x hm => h x (List.mem_cons_of_mem _ hm)]

theorem refURL_of_fragOnly {base r : String} (h : (splitPointer r).1 = "") :
    refURL base r = (base, (splitPointer r).2) := by
  rw [refURL, h, urljoin]
  simp

theorem refURL_fst_of_fragOnly {base r : String} (h : (splitPointer r).1 = "") :
    (refURL base r).1 = base := by
  rw [refURL_of_fragOnly h]

theorem isFragStr_split {r : String} (h : isFragStr (.str r) = true) :
    (splitPointer r).1 = "" :=
  eq_of_beq h

theorem resolveRefs_fragOnly_pres :
    ∀ (f : Nat) (load : String → Option J) (base : String) (referrer v w : J),
      fragOnly referrer = true → fragOnly v = true →
      resolveRefs load base f referrer v = .ok w → fragOnly w = true := by
  intro f
  induction f with
  | zero => intro load base referrer v w _ _ h; cases h
  | succ f ih =>
      intro load base referrer v w href hv h
      cases v with
      | null => exact okInj h ▸ rfl
      | bool b => exact okInj h ▸ rfl
      | num n => exact okInj h ▸ rfl
      | str s => exact okInj h ▸ hv
      | arr xs =>
          rw [resolveRefs_arr] at h
          cases hmap : mapItemsM (resolveRefs load base f referrer) xs with
          | error e => rw [hmap, mapE_err] at h; cases h
          | ok ws =>
              rw [hmap, mapE_ok] at h
              cases okInj h
              show fragOnlyItems ws = true
              exact mapItemsM_fragPres
                (fun v' w' hv' h' => ih load base referrer v' w' href hv' h')
                (fun x hm => fragOnlyItems_mem hv x hm) hmap
      | obj kvs =>
          cases hgv : getVal kvs "$ref" with
          | none =>
              rw [resolveRefs_obj_noref load base f referrer hgv] at h
              cases hmap : mapValsM (resolveRefs load base f referrer) kvs with
              | error e => rw [hmap, mapE_err] at h; cases h
              | ok ws =>
                  rw [hmap, mapE_ok] at h
                  cases okInj h
                  show fragOnlyFields ws = true
                  exact mapValsM_fragPres
                    (fun v' w' hv' h' => ih load base referrer v' w' href hv' h')
                    (fun kv hm => ⟨getVal_none_forall hgv kv hm,
                      (fragOnlyFields_mem hv kv hm).2⟩) hmap
          | some jv =>
              have hentry := fragOnlyFields_mem hv _ (getVal_mem hgv)
              cases jv with
              | str r =>
                  have hfrag : (splitPointer r).1 = "" := by
                    have h1 := hentry.1
                    rw [refEntryOK, if_pos rfl] at h1
                    exact isFragStr_split h1
                  rw [resolveRefs_obj_ref load base f referrer hgv,
                    if_pos (refURL_fst_of_fragOnly hfrag), refsAfterDoc,
                    refURL_of_fragOnly hfrag] at h
                  cases hrf : resolveFragment referrer (splitPointer r).2 with
                  | error e => rw [hrf, bindE_err] at h; cases h
                  | ok target =>
                      rw [hrf, bindE_ok] at h
                      have htarget : fragOnly target = true :=
                        resolveFragment_pres href hrf
                      cases hres : resolveRefs load base f target target with
                      | error e => rw [hres, bindE_err] at h; cases h
                      | ok target' =>
                          rw [hres, bindE_ok] at h
                          have htarget' :=
                            ih load base target target target' htarget htarget hres
                          have hmerged := mergeJ_fragOnly hv htarget'
                          cases hm : mergeJ (.obj kvs) target' with
                          | obj m =>
                              simp only [hm] at h
                              rw [hm] at hmerged
                              cases hmap : mapValsM (resolveRefs load base f referrer)
                                  (popKey m "$ref") with
                              | error e => rw [hmap, mapE_err] at h; cases h
                              | ok ws =>
                                  rw [hmap, mapE_ok] at h
                                  cases okInj h
                                  show fragOnlyFields ws = true
                                  refine mapValsM_fragPres
                                    (fun v' w' hv' h' =>
                                      ih load base referrer v' w' href hv' h')
                                    (fun kv hm2 => ?_) hmap
                                  rcases mem_popKey hm2 with ⟨hmm, hmk⟩
                                  exact ⟨hmk, (fragOnlyFields_mem hmerged kv hmm).2⟩
                          | arr xs' =>
                              simp only [hm] at h
                              cases hmap : mapItemsM (resolveRefs load base f referrer)
                                  xs' with
                              | error e => rw [hmap, bindE_err] at h; cases h
                              | ok ws =>
                                  rw [hmap, bindE_ok] at h
                                  rw [← okInj h]
                                  exact hv
                          | null => simp only [hm] at h; cases h
                          | bool b => simp only [hm] at h; cases h
                          | num n => simp only [hm] at h; cases h
                          | str s => simp only [hm] at h; cases h
              | null =>
                  have h1 := hentry.1
                  rw [refEntryOK, if_pos rfl] at h1
                  cases h1
              | bool b =>
                  have h1 := hentry.1
                  rw [refEntryOK, if_pos rfl] at h1
                  cases h1
              | num n =>
                  have h1 := hentry.1
                  rw [refEntryOK, if_pos rfl] at h1
                  cases h1
              | arr xs' =>
                  have h1 := hentry.1
                  rw [refEntryOK, if_pos rfl] at h1
                  cases h1
              | obj kvs' =>
                  have h1 := hentry.1
                  rw [refEntryOK, if_pos rfl] at h1
                  cases h1

theorem resolveRefs_loader_eq :
    ∀ (f : Nat) (l₁ l₂ : String → Option J) (base : String) (referrer v : J),
      fragOnly referrer = true → fragOnly v = true →
      resolveRefs l₁ base f referrer v = resolveRefs l₂ base f referrer v := by
  intro f
  induction f with
  | zero => intro l₁ l₂ base referrer v _ _; rfl
  | succ f ih =>
      intro l₁ l₂ base referrer v href hv
      cases v with
      | null => rfl
      | bool b => rfl
      | num n => rfl
      | str s => rfl
      | arr xs =>
          rw [resolveRefs_arr, resolveRefs_arr,
            mapItemsM_congr fun x hm =>
              ih l₁ l₂ base referrer x href (fragOnlyItems_mem hv x hm)]
      | obj kvs =>
          cases hgv : getVal kvs "$ref" with
          | none =>
              rw [resolveRefs_obj_noref l₁ base f referrer hgv,
                resolveRefs_obj_noref l₂ base f referrer hgv,
                mapValsM_congr fun kv hm =>
                  ih l₁ l₂ base referrer kv.2 href (fragOnlyFields_mem hv kv hm).2]
          | some jv =>
              have hentry := fragOnlyFields_mem hv _ (getVal_mem hgv)
              cases jv with
              | str r =>
                  have hfrag : (splitPointer r).1 = "" := by
                    have h1 := hentry.1
                    rw [refEntryOK, if_pos rfl] at h1
                    exact isFragStr_split h1
                  rw [resolveRefs_obj_ref l₁ base f referrer hgv,
                    resolveRefs_obj_ref l₂ base f referrer hgv,
                    if_pos (refURL_fst_of_fragOnly hfrag),
                    if_pos (refURL_fst_of_fragOnly hfrag),
                    refsAfterDoc, refsAfterDoc]
                  cases hrf : resolveFragment referrer (refURL base r).2 with
                  | error e => rw [bindE_err, bindE_err]
                  | ok target =>
                      rw [bindE_ok, bindE_ok]
                      have htarget : fragOnly target = true :=
                        resolveFragment_pres href hrf
                      rw [ih l₁ l₂ base target target htarget htarget]
                      cases hres : resolveRefs l₂ base f target target with
                      | error e => rw [bindE_err, bindE_err]
                      | ok target' =>
                          rw [bindE_ok, bindE_ok]
                          have htarget' :=
                            resolveRefs_fragOnly_pres f l₂ base target target target'
                              htarget htarget hres
                          have hmerged := mergeJ_fragOnly hv htarget'
                          cases hm : mergeJ (.obj kvs) target' with
                          | obj m =>
                              rw [hm] at hmerged
                              simp only [hm]
                              rw [mapValsM_congr fun kv hm2 => ?_]
                              rcases mem_popKey hm2 with ⟨hmm, _⟩
                              exact ih l₁ l₂ base referrer kv.2 href
                                (fragOnlyFields_mem hmerged kv hmm).2
                          | arr xs' =>
                              rw [hm] at hmerged
                              simp only [hm]
                              rw [mapItemsM_congr fun x hm2 =>
                                ih l₁ l₂ base referrer x href
                                  (fragOnlyItems_mem hmerged x hm2)]
                          | null => simp only [hm]
                          | bool b => simp only [hm]
                          | num n => simp only [hm]
                          | str s => simp only [hm]
              | null =>
                  have h1 := hentry.1
                  rw [refEntryOK, if_pos rfl] at h1
                  cases h1
              | bool b =>
                  have h1 := hentry.1
                  rw [refEntryOK, if_pos rfl] at h1
                  cases h1
              | num n =>
                  have h1 := hentry.1
                  rw [refEntryOK, if_pos rfl] at h1
                  cases h1
              | arr xs' =>
                  have h1 := hentry.1
                  rw [refEntryOK, if_pos rfl] at h1
                  cases h1
              | obj kvs' =>
                  have h1 := hentry.1
                  rw [refEntryOK, if_pos rfl] at h1
                  cases h1

/-- A single-document fixture whose only reference is the fragment-only
`#/definitions/x`. -/
def fragIsolationDoc : J :=
  .obj [
    ("a", .obj [("$ref", .str "#/definitions/x")]),
    ("definitions", .obj [("x", .obj [("t", .str "D")])])]

/-- The resolution of `fragIsolationDoc`: `#/definitions/x` is found by
walking the document's own nested mappings. -/
def fragIsolationResolved : J :=
  .obj [
    ("a", .obj [("t", .str "D")]),
    ("definitions", .obj [("x", .obj [("t", .str "D")])])]

/-- C8: fragment-only references resolve strictly within the document that
declares them.  (1) For every document whose references are all
fragment-only, resolution is independent of the document loader — no
sibling document is ever loaded or consulted.  (2) Concretely,
`#/definitions/x` is resolved by walking the declaring document's own
nested mappings even under a loader that would happily serve any URL. -/
theorem C8_fragment_isolation :
    (∀ (base : String) (fuel : Nat) (schema : J) (l₁ l₂ : String → Option J),
      fragOnly schema = true →
      resolve_all_refs l₁ base fuel schema = resolve_all_refs l₂ base fuel schema)
    ∧ recursive_resolve (fun _ => some (.str "bomb")) "file:///x" 9 fragIsolationDoc =
        .ok fragIsolationResolved :=
  ⟨fun base fuel schema l₁ l₂ h =>
    resolveRefs_loader_eq fuel l₁ l₂ base schema schema h h, rfl⟩

/-- Witness for C8: the loader-independence conjunct applied to the
concrete fixture under two maximally different loaders. -/
theorem C8_fragment_isolation_witness :
    resolve_all_refs (fun _ => some (.str "bomb")) "file:///x" 9 fragIsolationDoc =
      resolve_all_refs noLoad "file:///x" 9 fragIsolationDoc :=
  C8_fragment_isolation.1 "file:///x" 9 fragIsolationDoc
    (fun _ => some (.str "bomb")) noLoad rfl

/-- Conjunction of a Boolean predicate over the values of a mapping. -/
def allValsB (g : J → Bool) : List (String × J) → Bool
  | [] => true
  | (_, v) :: rest => g v && allValsB g rest

/-- Conjunction of a Boolean predicate over the elements of a sequence. -/
def allItemsB (g : J → Bool) : List J → Bool
  | [] => true
  | v :: rest => g v && allItemsB g rest

/-- The premise of the amended no-dangling-refs invariant, mirroring the
recursion of `resolveRefs` step for step: every pointer resolves (document
found, fragment found), every referenced target — after its own recursive
resolution — merges as a MAPPING, and the same holds recursively for the
nested resolution and for every value walked afterwards.  On runs
satisfying this predicate the resolver provably removes every `$ref`. -/
def refsOK (load : String → Option J) (base : String) : Nat → J → J → Bool
  | 0, _, _ => false
  | f + 1, referrer, v =>
      match v with
      | .obj kvs =>
          match getVal kvs "$ref" with
          | some (.str r) =>
              (match (if (refURL base r).1 = base then some referrer
                      else load (refURL base r).1) with
               | none => false
               | some doc =>
                   match resolveFragment doc (refURL base r).2 with
                   | .error _ => false
                   | .ok target =>
                       refsOK load base f target target &&
                       match resolveRefs load base f target target with
                       | .error _ => false
                       | .ok target' =>
                           match mergeJ (.obj kvs) target' with
                           | .obj m => allValsB (refsOK load base f referrer) (popKey m "$ref")
                           | _ => false)
          | some _ => false
          | none => allValsB (refsOK load base f referrer) kvs
      | .arr xs => allItemsB (refsOK load base f referrer) xs
      | _ => true

theorem refsOK_obj_ref {kvs : List (String × J)} {r : String}
    (load : String → Option J) (base : String) (f : Nat) (referrer : J)
    (hgv : getVal kvs "$ref" = some (.str r)) :
    refsOK load base (f + 1) referrer (.obj kvs) =
      (match (if (refURL base r).1 = base then some referrer
              else load (refURL base r).1) with
       | none => false
       | some doc =>
           match resolveFragment doc (refURL base r).2 with
           | .error _ => false
           | .ok target =>
               refsOK load base f target target &&
               match resolveRefs load base f target target with
               | .error _ => false
               | .ok target' =>
                   match mergeJ (.obj kvs) target' with
                   | .obj m => allValsB (refsOK load base f referrer) (popKey m "$ref")
                   | _ => false) := by
  rw [refsOK, hgv]

theorem refsOK_obj_noref {kvs : List (String × J)}
    (load : String → Option J) (base : String) (f : Nat) (referrer : J)
    (hgv : getVal kvs "$ref" = none) :
    refsOK load base (f + 1) referrer (.obj kvs) =
      allValsB (refsOK load base f referrer) kvs := by
  rw [refsOK, hgv]

theorem refsAfterDoc_ok {load : String → Option J} {base : String} {f : Nat}
    {referrer : J} {kvs : List (String × J)} {r : String} {doc target target' : J}
    {m ws : List (String × J)}
    (hrf : resolveFragment doc (refURL base r).2 = .ok target)
    (hres : resolveRefs load base f target target = .ok target')
    (hm : mergeJ (.obj kvs) target' = .obj m)
    (hmapv : mapValsM (resolveRefs load base f referrer) (popKey m "$ref") = .ok ws) :
    refsAfterDoc load base f referrer kvs r doc = .ok (.obj ws) := by
  rw [refsAfterDoc, hrf, bindE_ok, hres, bindE_ok]
  simp only [hm]
  rw [hmapv, mapE_ok]

theorem keys_ne_transfer {ws kvs : List (String × J)} {k : String}
    (hmap : ws.map Prod.fst = kvs.map Prod.fst)
    (h : ∀ kv ∈ kvs, kv.1 ≠ k) : ∀ kv ∈ ws, kv.1 ≠ k := by
  intro kv hm
  have h1 : kv.1 ∈ ws.map Prod.fst := List.mem_map_of_mem _ hm
  rw [hmap] at h1
  rcases List.mem_map.mp h1 with ⟨kv', hkv', heq⟩
  rw [← heq]
  exact h kv' hkv'

theorem mapValsM_of_all {g : J → Except RErr J} {p : J → Bool}
    (hg : ∀ v, p v = true → ∃ w, g v = .ok w ∧ hasRefDeep w = false) :
    ∀ {kvs : List (String × J)}, allValsB p kvs = true →
      ∃ ws, mapValsM g kvs = .ok ws ∧ hasRefFields ws = false := by
  intro kvs
  induction kvs with
  | nil => intro _; exact ⟨[], rfl, rfl⟩
  | cons hd tl ih =>
      intro hall
      cases hd with
      | mk k v =>
          rw [allValsB] at hall
          rcases Bool.and_eq_true_iff.mp hall with ⟨h1, h2⟩
          rcases hg v h1 with ⟨w, hw, hnr⟩
          rcases ih h2 with ⟨ws, hws, hnrs⟩
          refine ⟨(k, w) :: ws, ?_, ?_⟩
          · rw [mapValsM, hw, bindE_ok, hws, bindE_ok]
            rfl
          · rw [hasRefFields, hnr, hnrs]
            rfl

theorem mapItemsM_of_all {g : J → Except RErr J} {p : J → Bool}
    (hg : ∀ v, p v = true → ∃ w, g v = .ok w ∧ hasRefDeep w = false) :
    ∀ {xs : List J}, allItemsB p xs = true →
      ∃ ws, mapItemsM g xs = .ok ws ∧ hasRefItems ws = false := by
  intro xs
  induction xs with
  | nil => intro _; exact ⟨[], rfl, rfl⟩
  | cons hd tl ih =>
      intro hall
      rw [allItemsB] at hall
      rcases Bool.and_eq_true_iff.mp hall with ⟨h1, h2⟩
      rcases hg hd h1 with ⟨w, hw, hnr⟩
      rcases ih h2 with ⟨ws, hws, hnrs⟩
      refine ⟨w :: ws, ?_, ?_⟩
      · rw [mapItemsM, hw, bindE_ok, hws, bindE_ok]
        rfl
      · rw [hasRefItems, hnr, hnrs]
        rfl

theorem refsOK_implies_noRef :
    ∀ (f : Nat) (load : String → Option J) (base : String) (referrer v : J),
      refsOK load base f referrer v = true →
      ∃ w, resolveRefs load base f referrer v = .ok w ∧ hasRefDeep w = false := by
  intro f
  induction f with
  | zero => intro load base referrer v h; cases h
  | succ f ih =>
      intro load base referrer v hok
      cases v with
      | null => exact ⟨.null, rfl, rfl⟩
      | bool b => exact ⟨.bool b, rfl, rfl⟩
      | num n => exact ⟨.num n, rfl, rfl⟩
      | str s => exact ⟨.str s, rfl, rfl⟩
      | arr xs =>
          rcases mapItemsM_of_all (fun v hp => ih load base referrer v hp)
              (show allItemsB (refsOK load base f referrer) xs = true from hok) with
            ⟨ws, hws, hnrs⟩
          exact ⟨.arr ws, by rw [resolveRefs_arr, hws, mapE_ok], by
            rw [hasRefDeep]; exact hnrs⟩
      | obj kvs =>
          cases hgv : getVal kvs "$ref" with
          | none =>
              rw [refsOK_obj_noref load base f referrer hgv] at hok
              rcases mapValsM_of_all (fun v hp => ih load base referrer v hp) hok with
                ⟨ws, hws, hnrs⟩
              refine ⟨.obj ws, by
                rw [resolveRefs_obj_noref load base f referrer hgv, hws, mapE_ok], ?_⟩
              have hkeys : ∀ kv ∈ ws, kv.1 ≠ "$ref" :=
                keys_ne_transfer (mapValsM_keys hws) (getVal_none_forall hgv)
              rw [hasRefDeep, hasKey, getVal_none_of_forall hkeys, hnrs]
              rfl
          | some jv =>
              cases jv with
              | str r =>
                  rw [refsOK_obj_ref load base f referrer hgv] at hok
                  cases hdoc : (if (refURL base r).1 = base then some referrer
                      else load (refURL base r).1) with
                  | none => rw [hdoc] at hok; cases hok
                  | some doc =>
                      rw [hdoc] at hok
                      simp only [] at hok
                      cases hrf : resolveFragment doc (refURL base r).2 with
                      | error e => rw [hrf] at hok; cases hok
                      | ok target =>
                          rw [hrf] at hok
                          simp only [] at hok
                          rcases Bool.and_eq_true_iff.mp hok with ⟨hok1, hok2⟩
                          rcases ih load base target target hok1 with ⟨target', hres, _⟩
                          rw [hres] at hok2
                          simp only [] at hok2
                          cases hm : mergeJ (.obj kvs) target' with
                          | obj m =>
                              rw [hm] at hok2
                              rcases mapValsM_of_all
                                  (fun v hp => ih load base referrer v hp) hok2 with
                                ⟨ws, hws, hnrs⟩
                              have hkeys : ∀ kv ∈ ws, kv.1 ≠ "$ref" :=
                                keys_ne_transfer (mapValsM_keys hws)
                                  (fun kv hmem => (mem_popKey hmem).2)
                              refine ⟨.obj ws, ?_, ?_⟩
                              · rw [resolveRefs_obj_ref load base f referrer hgv]
                                by_cases hc : (refURL base r).1 = base
                                · rw [if_pos hc]
                                  rw [if_pos hc] at hdoc
                                  cases hdoc
                                  exact refsAfterDoc_ok hrf hres hm hws
                                · rw [if_neg hc]
                                  rw [if_neg hc] at hdoc
                                  rw [hdoc]
                                  exact refsAfterDoc_ok hrf hres hm hws
                              · rw [hasRefDeep, hasKey, getVal_none_of_forall hkeys, hnrs]
                                rfl
                          | arr xs' => rw [hm] at hok2; cases hok2
                          | null => rw [hm] at hok2; cases hok2
                          | bool b => rw [hm] at hok2; cases hok2
                          | num n => rw [hm] at hok2; cases hok2
                          | str s => rw [hm] at hok2; cases hok2
              | null => simp only [refsOK, hgv] at hok; exact absurd hok (by decide)
              | bool b => simp only [refsOK, hgv] at hok; exact absurd hok (by decide)
              | num n => simp only [refsOK, hgv] at hok; exact absurd hok (by decide)
              | arr xs' => simp only [refsOK, hgv] at hok; exact absurd hok (by decide)
              | obj kvs' => simp only [refsOK, hgv] at hok; exact absurd hok (by decide)

/-- C2 (amended): whenever every `$ref` pointer encountered during the run
resolves and every referenced target — after its own recursive resolution —
is a mapping (the `refsOK` premise), the resolve call succeeds and its
result contains no `$ref` key at any depth.  The counterexample shows the
proviso is necessary: a sequence-valued target leaves the referencing node,
`$ref` included, in the output. -/
theorem C2_no_refs_when_targets_are_mappings (load : String → Option J)
    (base : String) (fuel : Nat) (schema : J)
    (h : refsOK load base fuel schema schema = true) :
    ∃ w, resolve_all_refs load base fuel schema = .ok w ∧ hasRefDeep w = false :=
  refsOK_implies_noRef fuel load base schema schema h

/-- Witness for C2's amended theorem at the three-document fixture. -/
theorem C2_no_refs_witness :
    refsOK abcLoad "file:///tmp/t" 20 schemaA schemaA = true
    ∧ ∃ w, resolve_all_refs abcLoad "file:///tmp/t" 20 schemaA = .ok w
        ∧ hasRefDeep w = false :=
  ⟨rfl, C2_no_refs_when_targets_are_mappings abcLoad "file:///tmp/t" 20 schemaA rfl⟩

/-- A direct reference cycle: the root `$ref` points, through the empty
fragment path, at the document itself. -/
def cyclicDoc : J := .obj [("$ref", .str "#/")]

/-- The resolver performs no cycle detection: on the self-referencing
document every fuel bound is exhausted — the Python original recurses
indefinitely.  (Kept as a development lemma: the other half of the
termination claim, for acyclic reference graphs, depends on the in-place
mutation and caching behavior of the original that this embedding does not
model.) -/
theorem resolve_cycle_diverges (fuel : Nat) :
    resolve_all_refs noLoad "file:///x" fuel cyclicDoc = .error .outOfFuel := by
  induction fuel with
  | zero => rfl
  | succ f ih =>
      have ih' : resolveRefs noLoad "file:///x" f cyclicDoc cyclicDoc =
          .error .outOfFuel := ih
      show resolveRefs noLoad "file:///x" (f + 1) cyclicDoc
          (J.obj [("$ref", J.str "#/")]) = .error .outOfFuel
      rw [@resolveRefs_obj_ref [("$ref", J.str "#/")] "#/" noLoad "file:///x" f
          cyclicDoc rfl,
        if_pos (show (refURL "file:///x" "#/").1 = "file:///x" from rfl),
        refsAfterDoc,
        show resolveFragment cyclicDoc (refURL "file:///x" "#/").2 =
          Except.ok cyclicDoc from rfl,
        bindE_ok, ih', bindE_err]

end Codectl
